import Mathlib

/-!
Verification of the BeeHive free-time-finder core (`free_time_finder.py`):
the busy-interval normalizer `merge_busy_intervals` (backed by
`IntervalTree.merge_overlaps`) and the slot scanner
`find_free_slots_ortools`.

Times are modelled in whole minutes as integers. The Python code only
manipulates datetimes at minute granularity (the cursor starts with
`second=0, microsecond=0` and advances by whole minutes or whole days),
and every comparison the algorithms make is a plain order comparison on
instants, so an integer timeline is faithful. A day is 1440 minutes.
Python's `%` with a positive modulus and `//` agree with `Int.emod` and
`Int.ediv`, which are Lean's `%` and `/` on `Int`.
-/

namespace BeeHive

/-- Model of `datetime.hour` for an instant `t` given in minutes: the hour-of-day,
always in `[0, 24)`. -/
def hourOf (t : Int) : Int := t % 1440 / 60

/-- Midnight of the day containing `t`
(`t.replace(hour=0, minute=0, second=0, microsecond=0)`). -/
def floorDay (t : Int) : Int := t - t % 1440

/-- The strict order on `intervaltree.Interval` records: lexicographic on
`(begin, end)` (the `data` slot is always `None` here). -/
def ivLt (a b : Int × Int) : Prop := a.1 < b.1 ∨ (a.1 = b.1 ∧ a.2 < b.2)

instance (a b : Int × Int) : Decidable (ivLt a b) := by
  unfold ivLt; infer_instance

/-- Insertion into the sorted, deduplicated list of intervals held by an
`IntervalTree`: the tree is a set of `Interval(begin, end, data=None)`
records ordered lexicographically by `(begin, end)`, so `tree.addi` of an
already-present pair is a no-op. -/
def insertIv (x : Int × Int) : List (Int × Int) → List (Int × Int)
  | [] => [x]
  | y :: ys =>
    if x = y then y :: ys
    else if ivLt x y then x :: y :: ys
    else y :: insertIv x ys

/-- The tree built by the loop in `merge_busy_intervals` (lines 93-98):
raw intervals with `start >= end` are skipped with a warning, the rest
are inserted with `tree.addi(start, end)`. The result is the tree's
sorted interval list. -/
def toTree (l : List (Int × Int)) : List (Int × Int) :=
  (l.filter fun p => decide (p.1 < p.2)).foldl (fun acc p => insertIv p acc) []

/-- The merge pass of `IntervalTree.merge_overlaps()` with its default
`strict=True`: walking the sorted intervals, the running interval
`cur` absorbs the next interval `y` exactly when `y.begin < cur.end`
(strict overlap), extending to `max cur.end y.end`; otherwise `y` starts
a new series. Touching intervals (`y.begin == cur.end`) do NOT merge
under the default. -/
def mergeOverlapsGo (cur : Int × Int) : List (Int × Int) → List (Int × Int)
  | [] => [cur]
  | y :: ys =>
    if y.1 < cur.2 then mergeOverlapsGo (cur.1, max cur.2 y.2) ys
    else cur :: mergeOverlapsGo y ys

/-- Model of `IntervalTree.merge_overlaps()` (default arguments) on the sorted
interval list. -/
def mergeOverlaps : List (Int × Int) → List (Int × Int)
  | [] => []
  | x :: xs => mergeOverlapsGo x xs

/-- Model of `merge_busy_intervals` (lines 78-105): drop malformed intervals,
build the `IntervalTree`, call `merge_overlaps()`, and return the merged
intervals in sorted order. (The `datetime <-> timestamp` conversions are
the identity on the integer timeline; the early return on an empty input
list coincides with the general path.) -/
def merge_busy_intervals (intervals : List (Int × Int)) : List (Int × Int) :=
  mergeOverlaps (toTree intervals)

/-- A free slot as emitted by `find_free_slots_ortools`:
`{"start": ..., "end": ..., "duration_minutes": ...}`. The `end` field is
named `stop` because `end` is a Lean keyword. -/
structure FreeSlot where
  start : Int
  stop : Int
  duration_minutes : Int
deriving DecidableEq, Repr

/-- Result of running the scan loop: the emitted slots, the number of
loop-body iterations executed, and whether the loop ran to completion
(cursor reached `end_dt`) within the given fuel. -/
structure ScanResult where
  slots : List FreeSlot
  steps : Nat
  finished : Bool
deriving DecidableEq, Repr

/-- The conflict test of lines 181-185: slot `[cur, slotEnd)` conflicts
with some merged busy interval `b` iff
`not (slot_end <= busy_start or current >= busy_end)` holds for `b`
(the loop breaks at the first conflict, which `List.any` mirrors). -/
def hasConflict (merged : List (Int × Int)) (cur slotEnd : Int) : Bool :=
  merged.any fun b => !(decide (slotEnd ≤ b.1) || decide (b.2 ≤ cur))

/-- One iteration of the `while current < end_dt` loop body
(lines 163-194): returns the next cursor value and the emitted slot, if
any.
* `current.hour >= work_end`: jump to the next day at `work_start:00`.
* `current.hour < work_start`: clamp to `work_start:00` the same day.
* `slot_end.hour > work_end`: skip, advance by the slot duration.
* conflict with a merged busy interval: skip, advance.
* otherwise emit `{start: current, end: slot_end, duration_minutes: d}`
  and advance. -/
def scanStep (merged : List (Int × Int)) (d ws we cur : Int) :
    Int × Option FreeSlot :=
  if we ≤ hourOf cur then
    (floorDay (cur + 1440) + 60 * ws, none)
  else if hourOf cur < ws then
    (floorDay cur + 60 * ws, none)
  else if we < hourOf (cur + d) then
    (cur + d, none)
  else if hasConflict merged cur (cur + d) then
    (cur + d, none)
  else
    (cur + d, some ⟨cur, cur + d, d⟩)

/-- The `while current < end_dt` loop of `find_free_slots_ortools`,
written with explicit fuel (each recursive call is one executed loop
iteration; `finished` records whether the cursor reached `end_dt` before
the fuel ran out). -/
def scanGo (merged : List (Int × Int)) (d ws we endDt : Int) :
    Nat → Int → ScanResult
  | 0, cur => ⟨[], 0, !decide (cur < endDt)⟩
  | fuel + 1, cur =>
    if cur < endDt then
      let s := scanStep merged d ws we cur
      let r := scanGo merged d ws we endDt fuel s.1
      ⟨s.2.toList ++ r.slots, r.steps + 1, r.finished⟩
    else ⟨[], 0, true⟩

/-- The exceptions `find_free_slots_ortools` raises while validating:
the first four are `ValueError`s (lines 135-142), the fifth is the
`InvalidDateRangeError` of line 150-151. -/
inductive ScanError where
  | slotDurationNotPositive
  | workStartOutOfRange
  | workEndOutOfRange
  | workWindowInverted
  | dateRangeInverted
deriving DecidableEq, Repr

/-- Model of `find_free_slots_ortools` (lines 108-205), with the MM/DD/YYYY
parsing abstracted: `startDay` and `endDay` are the successfully parsed
dates as day numbers (midnight of day `k` is minute `1440 * k`), so
`start_dt = 1440 * startDay` and `end_dt` is the parsed end date plus
one day, `1440 * (endDay + 1)`. Validation order follows the source.
The CP-SAT model built alongside the scan never influences the returned
list (each added constraint only pins the boolean of a slot that is not
emitted, and the solve happens after `free_slots` is final), so it is
omitted, as is logging. The cursor starts at
`start_dt.replace(hour=work_start, ...)` and the fuel
`(end_dt - cursor).toNat` is enough for the loop to finish, proved
separately. -/
def find_free_slots_ortools (startDay endDay : Int)
    (busy : List (Int × Int)) (slot_duration_min work_start work_end : Int) :
    Except ScanError (List FreeSlot) :=
  if slot_duration_min ≤ 0 then .error .slotDurationNotPositive
  else if ¬(0 ≤ work_start ∧ work_start < 24) then .error .workStartOutOfRange
  else if ¬(0 ≤ work_end ∧ work_end ≤ 24) then .error .workEndOutOfRange
  else if work_end ≤ work_start then .error .workWindowInverted
  else if 1440 * (endDay + 1) ≤ 1440 * startDay then .error .dateRangeInverted
  else
    .ok (scanGo (merge_busy_intervals busy) slot_duration_min work_start
          work_end (1440 * (endDay + 1))
          (1440 * (endDay + 1) - (1440 * startDay + 60 * work_start)).toNat
          (1440 * startDay + 60 * work_start)).slots

/-! ### Normalizer: ordering and validity invariants -/

theorem ivLt_of_not {x y : Int × Int} (hne : ¬x = y) (hlt : ¬ivLt x y) :
    ivLt y x := by
  rcases x with ⟨a, b⟩; rcases y with ⟨c, d⟩
  simp only [ivLt, Prod.mk.injEq] at *
  omega

theorem insertIv_subset {x z : Int × Int} :
    ∀ {l : List (Int × Int)}, z ∈ insertIv x l → z = x ∨ z ∈ l := by
  intro l
  induction l with
  | nil => simp [insertIv]
  | cons y ys ih =>
    simp only [insertIv]
    split_ifs with h1 h2
    · exact fun h => Or.inr h
    · intro h
      rcases List.mem_cons.mp h with h | h
      · exact Or.inl h
      · exact Or.inr h
    · intro h
      rcases List.mem_cons.mp h with h | h
      · exact Or.inr (List.mem_cons.mpr (Or.inl h))
      · rcases ih h with h | h
        · exact Or.inl h
        · exact Or.inr (List.mem_cons.mpr (Or.inr h))

theorem insertIv_pairwise {x : Int × Int} :
    ∀ {l : List (Int × Int)}, l.Pairwise ivLt → (insertIv x l).Pairwise ivLt := by
  intro l
  induction l with
  | nil => simp [insertIv]
  | cons y ys ih =>
    intro hp
    rcases List.pairwise_cons.mp hp with ⟨hy, hys⟩
    simp only [insertIv]
    split_ifs with h1 h2
    · exact hp
    · refine List.pairwise_cons.mpr ⟨?_, hp⟩
      intro z hz
      rcases List.mem_cons.mp hz with rfl | hz
      · exact h2
      · rcases h2 with h2 | h2
        · rcases hy z hz with h | h
          · exact Or.inl (h2.trans h)
          · exact Or.inl (by omega)
        · rcases hy z hz with h | h
          · exact Or.inl (by omega)
          · exact Or.inr (by omega)
    · refine List.pairwise_cons.mpr ⟨?_, ih hys⟩
      intro z hz
      rcases insertIv_subset hz with rfl | hz
      · exact ivLt_of_not h1 h2
      · exact hy z hz

/-- The fold that builds the tree preserves sortedness of the
accumulator. -/
theorem foldl_insertIv_pairwise :
    ∀ (l acc : List (Int × Int)), acc.Pairwise ivLt →
      (l.foldl (fun a p => insertIv p a) acc).Pairwise ivLt := by
  intro l
  induction l with
  | nil => exact fun acc h => h
  | cons p ps ih =>
    intro acc h
    exact ih (insertIv p acc) (insertIv_pairwise h)

theorem foldl_insertIv_subset :
    ∀ (l acc : List (Int × Int)) (z : Int × Int),
      z ∈ l.foldl (fun a p => insertIv p a) acc → z ∈ acc ∨ z ∈ l := by
  intro l
  induction l with
  | nil => exact fun acc z h => Or.inl h
  | cons p ps ih =>
    intro acc z h
    rcases ih (insertIv p acc) z h with h | h
    · rcases insertIv_subset h with rfl | h
      · exact Or.inr (List.mem_cons.mpr (Or.inl rfl))
      · exact Or.inl h
    · exact Or.inr (List.mem_cons.mpr (Or.inr h))

theorem toTree_pairwise (l : List (Int × Int)) : (toTree l).Pairwise ivLt :=
  foldl_insertIv_pairwise _ [] List.Pairwise.nil

theorem toTree_valid (l : List (Int × Int)) :
    ∀ p ∈ toTree l, p.1 < p.2 := by
  intro p hp
  rcases foldl_insertIv_subset _ [] p hp with h | h
  · cases h
  · have := List.mem_filter.mp h
    simpa using this.2

/-- The head of the merge pass output keeps the start of the running
interval and only ever grows its end. -/
theorem mergeOverlapsGo_head :
    ∀ (l : List (Int × Int)) (cur : Int × Int),
      ∃ e, (mergeOverlapsGo cur l).head? = some (cur.1, e) ∧ cur.2 ≤ e := by
  intro l
  induction l with
  | nil => exact fun cur => ⟨cur.2, rfl, le_refl _⟩
  | cons y ys ih =>
    intro cur
    simp only [mergeOverlapsGo]
    split_ifs with h
    · rcases ih (cur.1, max cur.2 y.2) with ⟨e, he, hle⟩
      exact ⟨e, he, le_trans (le_max_left _ _) hle⟩
    · exact ⟨cur.2, rfl, le_refl _⟩

theorem mergeOverlapsGo_valid :
    ∀ (l : List (Int × Int)) (cur : Int × Int), cur.1 < cur.2 →
      (∀ y ∈ l, y.1 < y.2) →
      ∀ p ∈ mergeOverlapsGo cur l, p.1 < p.2 := by
  intro l
  induction l with
  | nil =>
    intro cur hcur _ p hp
    simp only [mergeOverlapsGo, List.mem_singleton] at hp
    subst hp; exact hcur
  | cons y ys ih =>
    intro cur hcur hall p hp
    simp only [mergeOverlapsGo] at hp
    split_ifs at hp with h
    · exact ih (cur.1, max cur.2 y.2) (lt_of_lt_of_le hcur (le_max_left _ _))
        (fun z hz => hall z (List.mem_cons.mpr (Or.inr hz))) p hp
    · rcases List.mem_cons.mp hp with rfl | hp
      · exact hcur
      · exact ih y (hall y (List.mem_cons.mpr (Or.inl rfl)))
          (fun z hz => hall z (List.mem_cons.mpr (Or.inr hz))) p hp

/-- Core invariant of `merge_overlaps` (strict mode): on a start-sorted,
valid input the output is strictly ascending by start and consecutive
intervals satisfy `prev.end <= next.start`. -/
theorem mergeOverlapsGo_chain :
    ∀ (l : List (Int × Int)) (cur : Int × Int), cur.1 < cur.2 →
      (∀ y ∈ l, cur.1 ≤ y.1) → (∀ y ∈ l, y.1 < y.2) →
      l.Pairwise (fun a b => a.1 ≤ b.1) →
      (mergeOverlapsGo cur l).Chain' (fun a b => a.1 < b.1 ∧ a.2 ≤ b.1) := by
  intro l
  induction l with
  | nil =>
    intro cur _ _ _ _
    simp [mergeOverlapsGo]
  | cons y ys ih =>
    intro cur hcur hge hval hp
    rcases List.pairwise_cons.mp hp with ⟨hy, hys⟩
    simp only [mergeOverlapsGo]
    split_ifs with h
    · exact ih (cur.1, max cur.2 y.2) (lt_of_lt_of_le hcur (le_max_left _ _))
        (fun z hz => le_trans (hge y (List.mem_cons.mpr (Or.inl rfl))) (hy z hz))
        (fun z hz => hval z (List.mem_cons.mpr (Or.inr hz))) hys
    · push_neg at h
      have hchain := ih y (hval y (List.mem_cons.mpr (Or.inl rfl))) hy
        (fun z hz => hval z (List.mem_cons.mpr (Or.inr hz))) hys
      rcases mergeOverlapsGo_head ys y with ⟨e, he, -⟩
      refine List.chain'_cons'.mpr ⟨?_, hchain⟩
      intro z hz
      rw [he] at hz
      rcases Option.some_inj.mp hz with rfl
      exact ⟨lt_of_lt_of_le hcur h, h⟩

theorem merge_busy_intervals_valid (l : List (Int × Int)) :
    ∀ p ∈ merge_busy_intervals l, p.1 < p.2 := by
  unfold merge_busy_intervals mergeOverlaps
  cases htree : toTree l with
  | nil => simp
  | cons x xs =>
    have hval : ∀ p ∈ toTree l, p.1 < p.2 := toTree_valid l
    rw [htree] at hval
    exact mergeOverlapsGo_valid xs x
      (hval x (List.mem_cons.mpr (Or.inl rfl)))
      (fun z hz => hval z (List.mem_cons.mpr (Or.inr hz)))

/-- C5 (general form, used below): the normalized output is strictly
ascending by start with `prev.end <= next.start` for consecutive pairs. -/
theorem merge_busy_intervals_chain (l : List (Int × Int)) :
    (merge_busy_intervals l).Chain' (fun a b => a.1 < b.1 ∧ a.2 ≤ b.1) := by
  unfold merge_busy_intervals mergeOverlaps
  cases htree : toTree l with
  | nil => simp
  | cons x xs =>
    have hval : ∀ p ∈ toTree l, p.1 < p.2 := toTree_valid l
    have hpw : (toTree l).Pairwise ivLt := toTree_pairwise l
    rw [htree] at hval hpw
    rcases List.pairwise_cons.mp hpw with ⟨hx, hxs⟩
    refine mergeOverlapsGo_chain xs x
      (hval x (List.mem_cons.mpr (Or.inl rfl)))
      (fun z hz => ?_)
      (fun z hz => hval z (List.mem_cons.mpr (Or.inr hz)))
      (hxs.imp ?_)
    · rcases hx z hz with h | h
      · exact le_of_lt h
      · exact le_of_eq h.1
    · intro a b hab
      rcases hab with h | h
      · exact le_of_lt h
      · exact le_of_eq h.1

/-! ### Claims about the Normalizer -/

/-- C1 (counterexample): two exactly-touching raw intervals `[0,10)` and
`[10,20)` are NOT coalesced into `[0,20)` by `merge_busy_intervals`:
`IntervalTree.merge_overlaps()` defaults to `strict=True`, which merges
only strictly overlapping intervals. -/
theorem c1_touch_merge_counterexample :
    merge_busy_intervals [((0 : Int), (10 : Int)), (10, 20)] ≠ [(0, 20)] := by
  decide

/-- C1 (amended): two exactly-touching raw intervals `[t0,t1)` and
`[t1,t2)` are left as the two separate intervals `[t0,t1)`, `[t1,t2)` in
the Normalizer's output; only strictly overlapping intervals coalesce. -/
theorem c1_touch_merge_amended (t0 t1 t2 : Int) (h01 : t0 < t1) (h12 : t1 < t2) :
    merge_busy_intervals [(t0, t1), (t1, t2)] = [(t0, t1), (t1, t2)] := by
  simp [merge_busy_intervals, toTree, mergeOverlaps, mergeOverlapsGo, insertIv,
    ivLt, h01, h12, Prod.ext_iff, lt_irrefl,
    (show ¬(t1 < t0) by omega), (show ¬(t1 = t0) by omega)]

/-- C1 (witness for the amended claim) at `t0 = 0`, `t1 = 1`, `t2 = 2`. -/
theorem c1_touch_merge_amended_witness :
    merge_busy_intervals [((0 : Int), (1 : Int)), (1, 2)] = [(0, 1), (1, 2)] :=
  c1_touch_merge_amended 0 1 2 (by decide) (by decide)

/-- C5: for every input list, the Normalizer's output is sorted strictly
ascending by start, and every pair of consecutive output intervals
`prev, next` satisfies `prev.end <= next.start`. -/
theorem c5_normalized_sorted_no_overlap (l : List (Int × Int)) :
    ((merge_busy_intervals l).Chain' fun a b => a.1 < b.1) ∧
      ((merge_busy_intervals l).Chain' fun a b => a.2 ≤ b.1) :=
  ⟨(merge_busy_intervals_chain l).imp fun _ _ h => h.1,
   (merge_busy_intervals_chain l).imp fun _ _ h => h.2⟩

/-- C7: raw intervals with `start >= end` are dropped: the Normalizer's
output equals the output on the list with malformed entries removed
(so their presence does not change how the rest merges, and
normalization — a total function — never aborts), and no malformed
interval appears in the output (every output interval has
`start < end`). -/
theorem c7_malformed_dropped (l : List (Int × Int)) :
    merge_busy_intervals l =
        merge_busy_intervals (l.filter fun p => decide (p.1 < p.2)) ∧
      ∀ p ∈ merge_busy_intervals l, p.1 < p.2 := by
  refine ⟨?_, merge_busy_intervals_valid l⟩
  unfold merge_busy_intervals toTree
  rw [List.filter_filter]
  simp

/-- C7 (witness) on `[(3,1), (0,2)]`: the well-formed interval `(0,2)`
survives (and is indeed well-formed). -/
theorem c7_malformed_dropped_witness : (0 : Int) < 2 :=
  (c7_malformed_dropped [((3 : Int), (1 : Int)), (0, 2)]).2 (0, 2) (by decide)

/-! ### Scanner: cursor arithmetic and loop invariants -/

theorem hourOf_nonneg (t : Int) : 0 ≤ hourOf t := by
  unfold hourOf; omega

theorem hourOf_lt_24 (t : Int) : hourOf t < 24 := by
  unfold hourOf; omega

/-- After a day-jump or a clamp the cursor sits exactly at
`work_start:00` of some day. -/
theorem hourOf_floorDay_add (x ws : Int) (h0 : 0 ≤ ws) (h24 : ws < 24) :
    hourOf (floorDay x + 60 * ws) = ws := by
  unfold hourOf floorDay
  omega

/-- Every executed loop iteration strictly advances the cursor. -/
theorem scanStep_fst_lt (merged : List (Int × Int)) (d ws we cur : Int)
    (hd : 1 ≤ d) (hws : 0 ≤ ws) :
    cur < (scanStep merged d ws we cur).1 := by
  unfold scanStep
  split_ifs with h1 h2 h3 h4 <;> simp only [hourOf, floorDay] at * <;> omega

/-- Once the cursor has reached `end_dt`, the loop is over (whatever the
fuel). -/
theorem scanGo_done (merged : List (Int × Int)) (d ws we endDt : Int)
    (fuel : Nat) (cur : Int) (h : ¬cur < endDt) :
    scanGo merged d ws we endDt fuel cur = ⟨[], 0, true⟩ := by
  cases fuel <;> simp [scanGo, h]

theorem scanGo_succ_slots (merged : List (Int × Int)) (d ws we endDt : Int)
    (fuel : Nat) (cur : Int) (h : cur < endDt) :
    (scanGo merged d ws we endDt (fuel + 1) cur).slots =
      (scanStep merged d ws we cur).2.toList ++
        (scanGo merged d ws we endDt fuel (scanStep merged d ws we cur).1).slots := by
  simp [scanGo, h]

theorem scanGo_succ_steps (merged : List (Int × Int)) (d ws we endDt : Int)
    (fuel : Nat) (cur : Int) (h : cur < endDt) :
    (scanGo merged d ws we endDt (fuel + 1) cur).steps =
      (scanGo merged d ws we endDt fuel (scanStep merged d ws we cur).1).steps + 1 := by
  simp [scanGo, h]

theorem scanGo_succ_finished (merged : List (Int × Int)) (d ws we endDt : Int)
    (fuel : Nat) (cur : Int) (h : cur < endDt) :
    (scanGo merged d ws we endDt (fuel + 1) cur).finished =
      (scanGo merged d ws we endDt fuel (scanStep merged d ws we cur).1).finished := by
  simp [scanGo, h]

/-- Termination: fuel `end_dt - cursor` (in minutes) is always enough
for the loop to finish, because every iteration advances the cursor by
at least one minute. -/
theorem scanGo_finished (merged : List (Int × Int)) (d ws we endDt : Int)
    (hd : 1 ≤ d) (hws : 0 ≤ ws) :
    ∀ (fuel : Nat) (cur : Int), endDt - cur ≤ (fuel : Int) →
      (scanGo merged d ws we endDt fuel cur).finished = true := by
  intro fuel
  induction fuel with
  | zero =>
    intro cur h
    have hc : ¬cur < endDt := by simp at h; omega
    simp [scanGo_done, hc]
  | succ n ih =>
    intro cur h
    by_cases hc : cur < endDt
    · rw [scanGo_succ_finished merged d ws we endDt n cur hc]
      refine ih _ ?_
      have := scanStep_fst_lt merged d ws we cur hd hws
      push_cast at h ⊢
      omega
    · simp [scanGo_done, hc]

/-- Case analysis of one loop iteration: either nothing is emitted, or
the slot `[cursor, cursor + slot_duration)` is emitted, in which case the
iteration was a scan step whose window and conflict checks all passed. -/
theorem scanStep_cases (merged : List (Int × Int)) (d ws we cur : Int) :
    (scanStep merged d ws we cur).2 = none ∨
      ((scanStep merged d ws we cur).2 = some ⟨cur, cur + d, d⟩ ∧
        (scanStep merged d ws we cur).1 = cur + d ∧
        ws ≤ hourOf cur ∧ hourOf cur < we ∧ hourOf (cur + d) ≤ we ∧
        hasConflict merged cur (cur + d) = false) := by
  unfold scanStep
  split_ifs with h1 h2 h3 h4
  · exact Or.inl rfl
  · exact Or.inl rfl
  · exact Or.inl rfl
  · exact Or.inl rfl
  · refine Or.inr ⟨rfl, rfl, by omega, by omega, by omega, ?_⟩
    revert h4
    cases hasConflict merged cur (cur + d) <;> simp

/-- Every emitted slot starts no earlier than the cursor position the
loop was entered with. -/
theorem scanGo_slots_start_ge (merged : List (Int × Int)) (d ws we endDt : Int)
    (hd : 1 ≤ d) (hws : 0 ≤ ws) :
    ∀ (fuel : Nat) (cur : Int), ∀ s ∈ (scanGo merged d ws we endDt fuel cur).slots,
      cur ≤ s.start := by
  intro fuel
  induction fuel with
  | zero => intro cur s hs; simp [scanGo] at hs
  | succ n ih =>
    intro cur s hs
    by_cases hc : cur < endDt
    · rw [scanGo_succ_slots merged d ws we endDt n cur hc] at hs
      simp only [List.mem_append, Option.mem_toList, Option.mem_def] at hs
      have hadv := scanStep_fst_lt merged d ws we cur hd hws
      rcases hs with hs | hs
      · rcases scanStep_cases merged d ws we cur with hnone | ⟨hsome, -, -, -, -, -⟩
        · rw [hnone] at hs; cases hs
        · rw [hsome] at hs
          rcases Option.some_inj.mp hs with rfl
          exact le_refl cur
      · exact le_trans (le_of_lt hadv) (ih _ s hs)
    · simp [scanGo_done, hc] at hs

/-- Every emitted slot has `end = start + slot_duration` and records
`duration_minutes = slot_duration`. -/
theorem scanGo_slots_shape (merged : List (Int × Int)) (d ws we endDt : Int) :
    ∀ (fuel : Nat) (cur : Int), ∀ s ∈ (scanGo merged d ws we endDt fuel cur).slots,
      s.stop = s.start + d ∧ s.duration_minutes = d := by
  intro fuel
  induction fuel with
  | zero => intro cur s hs; simp [scanGo] at hs
  | succ n ih =>
    intro cur s hs
    by_cases hc : cur < endDt
    · rw [scanGo_succ_slots merged d ws we endDt n cur hc] at hs
      simp only [List.mem_append, Option.mem_toList, Option.mem_def] at hs
      rcases hs with hs | hs
      · rcases scanStep_cases merged d ws we cur with hnone | ⟨hsome, -, -, -, -, -⟩
        · rw [hnone] at hs; cases hs
        · rw [hsome] at hs
          rcases Option.some_inj.mp hs with rfl
          exact ⟨rfl, rfl⟩
      · exact ih _ s hs
    · simp [scanGo_done, hc] at hs

/-- Emitted slots are chronological and non-overlapping: each slot ends
no later than the next one starts. -/
theorem scanGo_slots_pairwise (merged : List (Int × Int)) (d ws we endDt : Int)
    (hd : 1 ≤ d) (hws : 0 ≤ ws) :
    ∀ (fuel : Nat) (cur : Int),
      ((scanGo merged d ws we endDt fuel cur).slots).Pairwise
        (fun a b => a.stop ≤ b.start) := by
  intro fuel
  induction fuel with
  | zero => intro cur; simp [scanGo]
  | succ n ih =>
    intro cur
    by_cases hc : cur < endDt
    · rw [scanGo_succ_slots merged d ws we endDt n cur hc]
      rcases scanStep_cases merged d ws we cur with hnone | ⟨hsome, hfst, -, -, -, -⟩
      · rw [hnone]
        simpa using ih (scanStep merged d ws we cur).1
      · rw [hsome]
        simp only [Option.toList_some, List.singleton_append]
        refine List.pairwise_cons.mpr ⟨?_, ih _⟩
        intro b hb
        have hge := scanGo_slots_start_ge merged d ws we endDt hd hws n _ b hb
        rw [hfst] at hge
        exact hge
    · simp [scanGo_done, hc]

/-- Disjointness: an emitted slot passes the half-open overlap test
against every merged busy interval. -/
theorem scanGo_slots_disjoint (merged : List (Int × Int)) (d ws we endDt : Int) :
    ∀ (fuel : Nat) (cur : Int), ∀ s ∈ (scanGo merged d ws we endDt fuel cur).slots,
      ∀ b ∈ merged, s.stop ≤ b.1 ∨ b.2 ≤ s.start := by
  intro fuel
  induction fuel with
  | zero => intro cur s hs; simp [scanGo] at hs
  | succ n ih =>
    intro cur s hs
    by_cases hc : cur < endDt
    · rw [scanGo_succ_slots merged d ws we endDt n cur hc] at hs
      simp only [List.mem_append, Option.mem_toList, Option.mem_def] at hs
      rcases hs with hs | hs
      · rcases scanStep_cases merged d ws we cur with hnone | ⟨hsome, -, -, -, -, hnc⟩
        · rw [hnone] at hs; cases hs
        · rw [hsome] at hs
          rcases Option.some_inj.mp hs with rfl
          intro b hb
          have h1 : ¬(hasConflict merged cur (cur + d) = true) := by simp [hnc]
          unfold hasConflict at h1
          rw [List.any_eq_true] at h1
          push_neg at h1
          have h2 := h1 b hb
          simp only [Bool.not_eq_true, Bool.not_eq_false', Bool.or_eq_true,
            decide_eq_true_eq] at h2
          exact h2
      · exact ih _ s hs
    · simp [scanGo_done, hc] at hs

/-- Inversion of a successful call: success implies every validation
passed, and the returned list is the one produced by the cursor loop run
from `start_dt.replace(hour=work_start)` to `end_dt` (parsed end date
plus one day). -/
theorem find_free_slots_ok (sd ed : Int) (busy : List (Int × Int)) (d ws we : Int)
    (slots : List FreeSlot)
    (h : find_free_slots_ortools sd ed busy d ws we = .ok slots) :
    1 ≤ d ∧ 0 ≤ ws ∧ ws < 24 ∧ 0 ≤ we ∧ we ≤ 24 ∧ ws < we ∧ sd ≤ ed ∧
      slots = (scanGo (merge_busy_intervals busy) d ws we (1440 * (ed + 1))
        (1440 * (ed + 1) - (1440 * sd + 60 * ws)).toNat
        (1440 * sd + 60 * ws)).slots := by
  unfold find_free_slots_ortools at h
  split_ifs at h with h1 h2 h3 h4 h5 <;> cases h
  exact ⟨by omega, h2.1, h2.2, h3.1, h3.2, by omega, by omega, rfl⟩

/-! ### Claims about the Scanner -/

/-- Whether the modelled `find_free_slots_ortools` raised (the Python
call raised `ValueError` or `InvalidDateRangeError` before any scanning
and produced no result list). -/
def isError : Except ScanError (List FreeSlot) → Bool
  | .error _ => true
  | .ok _ => false

/-- C6: the Scanner raises exactly when a ScanParameters invariant is
violated: non-positive slot duration, `work_start` outside `[0,24)`,
`work_end` outside `[0,24]`, `work_start >= work_end`, or an inverted
date range (parsed start after parsed end). In the functional model the
error is the whole result — validation happens before the loop, so no
partial slot list exists. -/
theorem c6_error_iff_invalid (sd ed : Int) (busy : List (Int × Int)) (d ws we : Int) :
    isError (find_free_slots_ortools sd ed busy d ws we) = true ↔
      (d ≤ 0 ∨ ws < 0 ∨ 24 ≤ ws ∨ we < 0 ∨ 24 < we ∨ we ≤ ws ∨ ed < sd) := by
  unfold find_free_slots_ortools
  split_ifs with h1 h2 h3 h4 h5 <;> simp [isError] <;> omega

/-- C4: every slot returned by a successful scan passes the half-open
overlap test against every interval of the normalized busy set used to
produce it: `slot.end <= busy.start` or `busy.end <= slot.start`. -/
theorem c4_slots_disjoint_from_busy (sd ed : Int) (busy : List (Int × Int))
    (d ws we : Int) (slots : List FreeSlot)
    (h : find_free_slots_ortools sd ed busy d ws we = .ok slots) :
    ∀ s ∈ slots, ∀ b ∈ merge_busy_intervals busy,
      s.stop ≤ b.1 ∨ b.2 ≤ s.start := by
  obtain ⟨-, -, -, -, -, -, -, hslots⟩ := find_free_slots_ok sd ed busy d ws we slots h
  subst hslots
  exact scanGo_slots_disjoint (merge_busy_intervals busy) d ws we _ _ _

/-- C4 (witness): one day, work hours 9-11, busy `[10:00, 11:00)`; the
emitted slot `[09:00, 10:00)` is disjoint from the busy interval. -/
theorem c4_slots_disjoint_from_busy_witness :
    (600 : Int) ≤ 600 ∨ (660 : Int) ≤ 540 :=
  c4_slots_disjoint_from_busy 0 0 [(600, 660)] 60 9 11 [⟨540, 600, 60⟩]
    (by rfl) ⟨540, 600, 60⟩ (by decide) (600, 660) (by decide)

/-- C8: the slot list of a successful scan is strictly increasing
chronologically, pairwise non-overlapping, and every slot has
`end - start` equal to the slot duration (which is also the recorded
`duration_minutes`). -/
theorem c8_slots_ordered_exact_duration (sd ed : Int) (busy : List (Int × Int))
    (d ws we : Int) (slots : List FreeSlot)
    (h : find_free_slots_ortools sd ed busy d ws we = .ok slots) :
    slots.Pairwise (fun a b => a.start < b.start ∧ a.stop ≤ b.start) ∧
      ∀ s ∈ slots, s.stop - s.start = d ∧ s.duration_minutes = d := by
  obtain ⟨hd, hws, -, -, -, -, -, hslots⟩ := find_free_slots_ok sd ed busy d ws we slots h
  subst hslots
  have hshape := scanGo_slots_shape (merge_busy_intervals busy) d ws we
    (1440 * (ed + 1)) (1440 * (ed + 1) - (1440 * sd + 60 * ws)).toNat
    (1440 * sd + 60 * ws)
  constructor
  · refine List.Pairwise.imp_of_mem ?_
      (scanGo_slots_pairwise (merge_busy_intervals busy) d ws we
        (1440 * (ed + 1)) hd hws _ _)
    intro a b ha hb hab
    have := (hshape a ha).1
    exact ⟨by omega, hab⟩
  · intro s hs
    have := hshape s hs
    exact ⟨by omega, this.2⟩

/-- C8 (witness): one day, work hours 9-11, busy `[10:00, 11:00)`
yields the single slot `[09:00, 10:00)` of exactly 60 minutes. -/
theorem c8_slots_ordered_exact_duration_witness :
    ([⟨540, 600, 60⟩] : List FreeSlot).Pairwise
        (fun a b => a.start < b.start ∧ a.stop ≤ b.start) ∧
      ∀ s ∈ ([⟨540, 600, 60⟩] : List FreeSlot),
        s.stop - s.start = 60 ∧ s.duration_minutes = 60 :=
  c8_slots_ordered_exact_duration 0 0 [(600, 660)] 60 9 11 [⟨540, 600, 60⟩] (by rfl)

/-- C10: when the parsed start and end dates are the same day, the
Scanner does not raise a date-range error: the call succeeds and scans
the range whose exclusive end is the parsed end date plus one day,
`1440 * (day + 1)`. -/
theorem c10_equal_dates_accepted (day : Int) (busy : List (Int × Int))
    (d ws we : Int) (hd : 0 < d) (hws : 0 ≤ ws) (hwswe : ws < we) (hwe : we ≤ 24) :
    find_free_slots_ortools day day busy d ws we =
      .ok (scanGo (merge_busy_intervals busy) d ws we (1440 * (day + 1))
        (1440 * (day + 1) - (1440 * day + 60 * ws)).toNat
        (1440 * day + 60 * ws)).slots := by
  unfold find_free_slots_ortools
  rw [if_neg (by omega), if_neg (by omega), if_neg (by omega),
    if_neg (by omega), if_neg (by omega)]

/-- C10 (witness): equal dates, 60-minute slots, work hours 9-21. -/
theorem c10_equal_dates_accepted_witness :
    find_free_slots_ortools 0 0 [] 60 9 21 =
      .ok (scanGo (merge_busy_intervals []) 60 9 21 (1440 * (0 + 1))
        ((1440 * (0 + 1) - (1440 * 0 + 60 * 9) : Int)).toNat
        (1440 * 0 + 60 * 9)).slots :=
  c10_equal_dates_accepted 0 [] 60 9 21 (by decide) (by decide) (by decide)
    (by decide)

/-- C2 is violated by the code: with slot duration 50, work hours 9-21
and no busy intervals on a single day, the slot `20:40-21:30` (minutes
1240-1290) is emitted even though it ends 30 minutes after the
`21:00` work end (minute 1260): the check `slot_end.hour > work_end`
misses ends that fall inside hour `work_end`. -/
theorem c2_slot_spills_past_work_end :
    (⟨1240, 1290, 50⟩ : FreeSlot) ∈
        ((find_free_slots_ortools 0 0 [] 50 9 21).toOption.getD []) ∧
      21 * 60 < (1290 : Int) := by
  decide

/-- C3 is violated by the code: with slot duration 500 and work hours
9-21 on a single empty day, the scan emits TWO slots: `09:00-17:20`
(minutes 540-1040) and `17:20-01:40` (minutes 1040-1540), the second
crossing midnight past the working window — not exactly one slot per
day. -/
theorem c3_second_slot_crosses_midnight :
    (find_free_slots_ortools 0 0 [] 500 9 21).toOption =
      some [⟨540, 1040, 500⟩, ⟨1040, 1540, 500⟩] := by
  decide

/-! ### Iteration-count analysis (C9) -/

/-- From an in-window cursor (`work_start <= hour < work_end`) the
iteration always advances the cursor by exactly the slot duration. -/
theorem scanStep_fst_aligned (merged : List (Int × Int)) (d ws we cur : Int)
    (h1 : ws ≤ hourOf cur) (h2 : hourOf cur < we) :
    (scanStep merged d ws we cur).1 = cur + d := by
  unfold scanStep
  rw [if_neg (by omega), if_neg (by omega)]
  split_ifs <;> rfl

/-- From an out-of-window cursor the iteration is a day-jump or a clamp:
it lands exactly at `work_start:00` of some day, never moving backwards. -/
theorem scanStep_fst_of_unaligned (merged : List (Int × Int)) (d ws we cur : Int)
    (hws : 0 ≤ ws) (hws24 : ws < 24)
    (h : ¬(ws ≤ hourOf cur ∧ hourOf cur < we)) :
    hourOf (scanStep merged d ws we cur).1 = ws ∧
      cur ≤ (scanStep merged d ws we cur).1 := by
  unfold scanStep
  by_cases h1 : we ≤ hourOf cur
  · rw [if_pos h1]
    refine ⟨hourOf_floorDay_add _ ws hws hws24, ?_⟩
    show cur ≤ floorDay (cur + 1440) + 60 * ws
    unfold floorDay
    omega
  · have h2 : hourOf cur < ws := by omega
    rw [if_neg h1, if_pos h2]
    refine ⟨hourOf_floorDay_add _ ws hws hws24, ?_⟩
    show cur ≤ floorDay cur + 60 * ws
    unfold floorDay hourOf at *
    omega

/-- Iteration-count bound: starting from an in-window cursor, the loop
executes at most `2 * ceil((end_dt - cursor) / slot_duration)` body
iterations — out-of-window iterations (day-jump or clamp) are never
consecutive, and every other iteration advances by the slot duration. -/
theorem scanGo_steps_le (merged : List (Int × Int)) (d ws we endDt : Int)
    (hd : 1 ≤ d) (hws : 0 ≤ ws) (hwe : ws < we) (hws24 : ws < 24) :
    ∀ (fuel : Nat) (cur : Int), ws ≤ hourOf cur → hourOf cur < we →
      (scanGo merged d ws we endDt fuel cur).steps ≤
        2 * (((endDt - cur).toNat + (d.toNat - 1)) / d.toNat) := by
  intro fuel
  induction fuel using Nat.strong_induction_on with
  | _ fuel IH =>
    intro cur ha1 ha2
    by_cases hc : cur < endDt
    · cases fuel with
      | zero => simp [scanGo]
      | succ f =>
        rw [scanGo_succ_steps merged d ws we endDt f cur hc,
          scanStep_fst_aligned merged d ws we cur ha1 ha2]
        have hD : 0 < d.toNat := by omega
        have hN1 : 1 ≤ (endDt - cur).toNat := by omega
        have hsplit : (endDt - cur).toNat + (d.toNat - 1) =
            ((endDt - cur).toNat - 1) + d.toNat := by omega
        rw [hsplit, Nat.add_div_right _ hD]
        by_cases hc2 : cur + d < endDt
        · have hN2 : (endDt - (cur + d)).toNat + (d.toNat - 1) ≤
              (endDt - cur).toNat - 1 := by omega
          by_cases hal : ws ≤ hourOf (cur + d) ∧ hourOf (cur + d) < we
          · have hrec := IH f (by omega) (cur + d) hal.1 hal.2
            have hmono : ((endDt - (cur + d)).toNat + (d.toNat - 1)) / d.toNat ≤
                ((endDt - cur).toNat - 1) / d.toNat := Nat.div_le_div_right hN2
            linarith
          · cases f with
            | zero =>
              have hz : (scanGo merged d ws we endDt 0 (cur + d)).steps = 0 := rfl
              rw [hz]
              have := Nat.zero_le (((endDt - cur).toNat - 1) / d.toNat)
              linarith
            | succ g =>
              rw [scanGo_succ_steps merged d ws we endDt g (cur + d) hc2]
              obtain ⟨hto, hge⟩ :=
                scanStep_fst_of_unaligned merged d ws we (cur + d) hws hws24 hal
              have hrec := IH g (by omega) (scanStep merged d ws we (cur + d)).1
                (by omega) (by omega)
              have hN3 : (endDt - (scanStep merged d ws we (cur + d)).1).toNat +
                  (d.toNat - 1) ≤ (endDt - cur).toNat - 1 := by omega
              have hmono : ((endDt - (scanStep merged d ws we (cur + d)).1).toNat +
                    (d.toNat - 1)) / d.toNat ≤
                  ((endDt - cur).toNat - 1) / d.toNat := Nat.div_le_div_right hN3
              linarith
        · have hz : (scanGo merged d ws we endDt f (cur + d)).steps = 0 := by
            rw [scanGo_done merged d ws we endDt f (cur + d) hc2]
          rw [hz]
          have := Nat.zero_le (((endDt - cur).toNat - 1) / d.toNat)
          linarith
    · rw [scanGo_done merged d ws we endDt fuel cur hc]
      simp

set_option maxRecDepth 100000 in
/-- C9 (counterexample): for the valid parameters
`start = day 0, end = day 6` (a 7-day range), slot duration 63, work
hours 0-23 and no busy intervals — exactly the loop run by
`find_free_slots_ortools 0 6 [] 63 0 23` — the cursor loop executes 161
iterations, while `(range_end - range_start) / slot_duration = 160`:
the claimed bound is exceeded. -/
theorem c9_iteration_bound_counterexample :
    (scanGo (merge_busy_intervals []) 63 0 23 (1440 * (6 + 1))
          ((1440 * (6 + 1) - (1440 * 0 + 60 * 0) : Int)).toNat
          (1440 * 0 + 60 * 0)).steps = 161 ∧
      ((1440 * (6 + 1) - 1440 * 0 : Int)) / 63 = 160 ∧
      (find_free_slots_ortools 0 6 [] 63 0 23).toOption =
        some (scanGo (merge_busy_intervals []) 63 0 23 (1440 * (6 + 1))
          ((1440 * (6 + 1) - (1440 * 0 + 60 * 0) : Int)).toNat
          (1440 * 0 + 60 * 0)).slots := by
  refine ⟨by decide, by decide, by decide⟩

/-- C9 (amended): for every valid ScanParameters the cursor loop
terminates within its fuel, and its iteration count is bounded by
`2 * ceil((range_end - scan_start) / slot_duration)` (the stated bound
`(range_end - range_start) / slot_duration` can be exceeded, but only by
a factor below two). -/
theorem c9_loop_terminates_bounded (sd ed : Int) (busy : List (Int × Int))
    (d ws we : Int) (hd : 0 < d) (hws : 0 ≤ ws) (hwswe : ws < we)
    (hwe : we ≤ 24) (hrange : sd ≤ ed) :
    (scanGo (merge_busy_intervals busy) d ws we (1440 * (ed + 1))
          (1440 * (ed + 1) - (1440 * sd + 60 * ws)).toNat
          (1440 * sd + 60 * ws)).finished = true ∧
      (scanGo (merge_busy_intervals busy) d ws we (1440 * (ed + 1))
          (1440 * (ed + 1) - (1440 * sd + 60 * ws)).toNat
          (1440 * sd + 60 * ws)).steps ≤
        2 * (((1440 * (ed + 1) - (1440 * sd + 60 * ws)).toNat + (d.toNat - 1)) /
          d.toNat) := by
  have hh : hourOf (1440 * sd + 60 * ws) = ws := by
    unfold hourOf
    omega
  refine ⟨scanGo_finished _ _ _ _ _ hd hws _ _ (by omega), ?_⟩
  exact scanGo_steps_le (merge_busy_intervals busy) d ws we (1440 * (ed + 1))
    hd hws hwswe (by omega) _ _ (by omega) (by omega)

/-- C9 (witness for the amended claim): one empty day, 60-minute slots,
work hours 9-21: the loop finishes and its 13 iterations are within the
bound `2 * ceil(900 / 60) = 30`. -/
theorem c9_loop_terminates_bounded_witness :
    (scanGo (merge_busy_intervals []) 60 9 21 (1440 * (0 + 1))
          ((1440 * (0 + 1) - (1440 * 0 + 60 * 9) : Int)).toNat
          (1440 * 0 + 60 * 9)).finished = true ∧
      (scanGo (merge_busy_intervals []) 60 9 21 (1440 * (0 + 1))
          ((1440 * (0 + 1) - (1440 * 0 + 60 * 9) : Int)).toNat
          (1440 * 0 + 60 * 9)).steps ≤
        2 * ((((1440 * (0 + 1) - (1440 * 0 + 60 * 9) : Int)).toNat +
          ((60 : Int).toNat - 1)) / (60 : Int).toNat) :=
  c9_loop_terminates_bounded 0 0 [] 60 9 21 (by decide) (by decide) (by decide)
    (by decide) (by decide)

end BeeHive
